import Mathlib

/-!
Verification of the short-iron URL shortener (src/src/main.rs and
src/src/handlers/), a shallow embedding in Lean 4.

The registry state is the `HashMap<LongURL, ShortUrl>` guarded by one
`RwLock`.  Every handler acquires the lock once for its whole critical
section (`shorten` takes the write lock across the check-then-insert
sequence, `redirect` and `debugger` take the read lock), so at the
granularity of the map each handler invocation is a single atomic step;
traces of handler invocations are modelled as lists of such steps.

The `nanoid!(10)` generator call inside `shorten` is determinized by
passing the generated string as an explicit argument; the nanoid crate's
contract (10 characters from the URL-safe alphabet) enters theorems as a
hypothesis on that argument where a claim depends on it.
-/

set_option autoImplicit false

namespace ShortIron

/-! ## Model of the external `url` crate -/

/-- Scheme characters after the first: ASCII alphanumeric or `+`, `-`, `.`
(RFC 3986 / WHATWG scheme syntax, as accepted by `Url::parse`). -/
def isSchemeChar (c : Char) : Bool :=
  c.isAlphanum || c = '+' || c = '-' || c = '.'

/-- Splits a leading `scheme:` off a character list: returns the scheme
characters and the remainder after the colon, or `none` when no colon
terminates a run of scheme characters. -/
def splitSchemeAux : List Char → List Char → Option (List Char × List Char)
  | [], _ => none
  | c :: rest, acc =>
    if c = ':' then some (acc.reverse, rest)
    else if isSchemeChar c then splitSchemeAux rest (c :: acc)
    else none

/-- The WHATWG special schemes, whose URLs carry an authority and whose
empty path serializes as `/`. -/
def specialSchemes : List String := ["http", "https", "ws", "wss", "ftp", "file"]

/-- Characters that may appear in a host name in the modelled fragment. -/
def validHostChar (c : Char) : Bool :=
  !(c = ' ' || c = '@' || c = ':' || c = '\\' || c = '[' || c = ']')

/-- A parsed URL, as produced by the model of `Url::parse`.  For a special
scheme, `hasHost` is true and `host`/`path` are the parsed authority and
(already normalized) path; for a non-special scheme the remainder after
the colon is kept verbatim in `path`. -/
structure Url where
  scheme : String
  hasHost : Bool
  host : String
  path : String
deriving Repr, DecidableEq

/-- Serialization of a parsed URL, modelling `Url::to_string` (the WHATWG
serializer).  The path stored in `Url` is already normalized, so this is
plain concatenation. -/
def Url.to_string (u : Url) : String :=
  if u.hasHost then u.scheme ++ "://" ++ u.host ++ u.path
  else u.scheme ++ ":" ++ u.path

/-- Modelled from the spec: `Url::parse` of the external `url` crate is not
part of this repository's sources.  The spec describes it as parsing raw
input as an absolute URL, failing on input with a missing scheme, empty or
otherwise unparseable input, and comparing URLs by string equality after
parsing.  The model covers the fragment the handlers exercise: a mandatory
`scheme:` whose first character is a letter; for special schemes a
mandatory `//authority` with a nonempty host, lowercasing of scheme and
host, and serialization of an empty path as `/` (the WHATWG normalization
that turns `https://google.com` into `https://google.com/`); non-special
schemes keep their remainder verbatim. -/
def urlParse (raw : String) : Option Url :=
  match splitSchemeAux raw.data [] with
  | none => none
  | some (schemeChars, rest) =>
    match schemeChars with
    | [] => none
    | c0 :: _ =>
      if c0.isAlpha then
        let scheme := String.mk (schemeChars.map Char.toLower)
        if specialSchemes.contains scheme then
          match rest with
          | '/' :: '/' :: afterSlashes =>
            let hostChars := afterSlashes.takeWhile
              (fun c => !(c = '/' || c = '?' || c = '#'))
            let remChars := afterSlashes.drop hostChars.length
            if hostChars.isEmpty then none
            else if hostChars.all validHostChar then
              let host := String.mk (hostChars.map Char.toLower)
              let path :=
                match remChars with
                | [] => "/"
                | '/' :: _ => String.mk remChars
                | _ => "/" ++ String.mk remChars
              some { scheme := scheme, hasHost := true, host := host, path := path }
            else none
          | _ => none
        else
          some { scheme := scheme, hasHost := false, host := "", path := String.mk rest }
      else none

/-! ## Model of the nanoid generator's output alphabet -/

/-- Characters of the nanoid default URL-safe alphabet:
`A`–`Z`, `a`–`z`, `0`–`9`, `_`, `-`. -/
def isNanoidChar (c : Char) : Bool :=
  c.isAlphanum || c = '_' || c = '-'

/-- A string is a possible output of `nanoid!(10)`: exactly 10 characters,
all from the URL-safe alphabet.  This is the nanoid crate's documented
contract, used as a hypothesis on generator outputs. -/
def isNanoid10 (s : String) : Bool :=
  s.data.length = 10 && s.data.all isNanoidChar

/-! ## The registry state: `KnownUrls` -/

/-- Alias for `String`, as in the source (`type LongURL = String`). -/
abbrev LongURL := String

/-- Alias for `String`, as in the source (`type ShortUrl = String`). -/
abbrev ShortUrl := String

/-- The `HashMap<LongURL, ShortUrl>` behind the `RwLock`, modelled as an
association list with distinct keys.  `HashMap` iteration order is
arbitrary; the handlers only depend on it when two entries share a value,
which the theorems either exclude by hypothesis or exhibit explicitly. -/
abbrev KnownUrls := List (LongURL × ShortUrl)

/-- `HashMap::get`: the value stored at a key, if any. -/
def getUrl : KnownUrls → LongURL → Option ShortUrl
  | [], _ => none
  | kv :: rest, k => if kv.1 = k then some kv.2 else getUrl rest k

/-- `HashMap::insert`: replaces the value at an existing key, otherwise
appends a new entry. -/
def insertUrl : KnownUrls → LongURL → ShortUrl → KnownUrls
  | [], k, v => [(k, v)]
  | kv :: rest, k, v => if kv.1 = k then (k, v) :: rest else kv :: insertUrl rest k v

/-- The `iter().find_map(..)` scan of `redirect`: the key of the first
entry whose value equals `target`. -/
def findLong : KnownUrls → ShortUrl → Option LongURL
  | [], _ => none
  | kv :: rest, target => if kv.2 = target then some kv.1 else findLong rest target

/-! ## The handlers -/

/-- Outcome of the `shorten` handler: `Ok(String)` body, or the
`ErrorBadRequest` (400) returned when `Url::parse` fails. -/
inductive ShortenResp where
  | ok (body : String)
  | badRequest
deriving Repr, DecidableEq

/-- Outcome of the `redirect` handler: `303 See Other` with a `Location`
header, or `404 Not Found`. -/
inductive RedirectResp where
  | seeOther (location : String)
  | notFound
deriving Repr, DecidableEq

/-- The `shorten` handler (src/src/handlers/shorten_url.rs).  `nanoidVal`
is the string the `nanoid!(10)` call would produce.  Parsing happens
before the write lock is taken; on parse failure the handler returns
`ErrorBadRequest` without touching the map.  Under the single write-lock
acquisition it looks up `valid_url.to_string()` and either returns the
existing short URL or inserts `short.fe/` ++ nanoid and returns it. -/
def shorten (nanoidVal : String) (rawUrl : String) (s : KnownUrls) :
    ShortenResp × KnownUrls :=
  match urlParse rawUrl with
  | none => (.badRequest, s)
  | some validUrl =>
    match getUrl s validUrl.to_string with
    | some existing => (.ok existing, s)
    | none =>
      let shortened := "short.fe/" ++ nanoidVal
      (.ok shortened, insertUrl s validUrl.to_string shortened)

/-- The `redirect` handler (src/src/handlers/redirect.rs): prepends
`short.fe/` to the path segment, scans for an entry with that value, and
answers `303 See Other` with the entry's key or `404 Not Found`.  It holds
only the read lock and returns no new state. -/
def redirect (redirectId : String) (s : KnownUrls) : RedirectResp :=
  match findLong s ("short.fe/" ++ redirectId) with
  | some url => .seeOther url
  | none => .notFound

/-- The `debugger` handler (src/src/handlers/debugger.rs): returns an
owned copy of the map (`urls.to_owned()`) under the read lock. -/
def debugger (s : KnownUrls) : KnownUrls := s

/-! ## Traces of shorten invocations -/

/-- One `shorten` invocation: the string the generator produced for it and
the submitted raw URL. -/
structure Op where
  nanoidVal : String
  rawUrl : String
deriving Repr, DecidableEq

/-- The state after one `shorten` invocation.  The single write-lock
acquisition spanning the check and the insert makes the whole invocation
one atomic step on the map. -/
def stepShorten (s : KnownUrls) (op : Op) : KnownUrls :=
  (shorten op.nanoidVal op.rawUrl s).2

/-- The state after a sequence of `shorten` invocations. -/
def runShorten (s : KnownUrls) (ops : List Op) : KnownUrls :=
  ops.foldl stepShorten s

/-- The responses received by the invocations of a trace that submitted
exactly the raw URL `u`, in trace order. -/
def responsesFor (u : String) : KnownUrls → List Op → List ShortenResp
  | _, [] => []
  | s, op :: rest =>
    if op.rawUrl = u then
      (shorten op.nanoidVal op.rawUrl s).1 :: responsesFor u (stepShorten s op) rest
    else responsesFor u (stepShorten s op) rest

/-- The number of invocations of a trace submitting exactly `u`. -/
def countU (u : String) : List Op → Nat
  | [] => 0
  | op :: rest => countU u rest + (if op.rawUrl = u then 1 else 0)

/-- The mapping key a raw submission would use: the serialization of its
parse, when it parses. -/
def keyOf (raw : String) : Option String :=
  (urlParse raw).map Url.to_string

/-- The parse of `https://example.com` in the `url` crate model. -/
def exampleUrl : Url :=
  { scheme := "https", hasHost := true, host := "example.com", path := "/" }

/-- The parse of `https://google.com` in the `url` crate model. -/
def googleUrl : Url :=
  { scheme := "https", hasHost := true, host := "google.com", path := "/" }

/-- How many entries of the map carry the key `k`. -/
def countKey : KnownUrls → LongURL → Nat
  | [], _ => 0
  | kv :: rest, k => (if kv.1 = k then 1 else 0) + countKey rest k

/-- Value injectivity of the map (spec invariant 2): two entries with the
same short URL have the same key. -/
def injectiveValues (s : KnownUrls) : Prop :=
  ∀ kv1 ∈ s, ∀ kv2 ∈ s, kv1.2 = kv2.2 → kv1.1 = kv2.1

instance injectiveValues.decidable (s : KnownUrls) : Decidable (injectiveValues s) :=
  inferInstanceAs (Decidable (∀ kv1 ∈ s, ∀ kv2 ∈ s, kv1.2 = kv2.2 → kv1.1 = kv2.1))

/-- Every value of the map is `short.fe/` followed by a 10-character
nanoid-alphabet code. -/
def wellFormedValues (s : KnownUrls) : Prop :=
  ∀ kv ∈ s, ∃ code, isNanoid10 code = true ∧ kv.2 = "short.fe/" ++ code

/-! ## Basic lemmas about the map operations -/

theorem string_append_left_cancel {s a b : String} (h : s ++ a = s ++ b) : a = b := by
  have h2 := congrArg String.data h
  simp [String.data_append] at h2
  exact String.ext h2

theorem getUrl_eq_none_iff (s : KnownUrls) (k : LongURL) :
    getUrl s k = none ↔ ∀ kv ∈ s, kv.1 ≠ k := by
  induction s with
  | nil => simp [getUrl]
  | cons kv rest ih =>
    simp only [getUrl, List.mem_cons, forall_eq_or_imp]
    by_cases h : kv.1 = k
    · simp [h]
    · simp [h, ih]

theorem countKey_eq_zero (s : KnownUrls) (k : LongURL) (h : ∀ kv ∈ s, kv.1 ≠ k) :
    countKey s k = 0 := by
  induction s with
  | nil => rfl
  | cons kv rest ih =>
    have h1 : kv.1 ≠ k := h kv (List.mem_cons_self kv rest)
    simp [countKey, h1]
    exact ih (fun kv2 hm => h kv2 (List.mem_cons_of_mem kv hm))

theorem insertUrl_of_not_mem (s : KnownUrls) (k : LongURL) (v : ShortUrl)
    (h : ∀ kv ∈ s, kv.1 ≠ k) : insertUrl s k v = s ++ [(k, v)] := by
  induction s with
  | nil => rfl
  | cons kv rest ih =>
    have h1 : kv.1 ≠ k := h kv (List.mem_cons_self kv rest)
    simp [insertUrl, h1]
    exact ih (fun kv2 hm => h kv2 (List.mem_cons_of_mem kv hm))

theorem getUrl_insertUrl_self (s : KnownUrls) (k : LongURL) (v : ShortUrl) :
    getUrl (insertUrl s k v) k = some v := by
  induction s with
  | nil => simp [insertUrl, getUrl]
  | cons kv rest ih =>
    by_cases h : kv.1 = k
    · simp [insertUrl, h, getUrl]
    · simp [insertUrl, h, getUrl, ih]

theorem getUrl_insertUrl_ne (s : KnownUrls) (k k0 : LongURL) (v : ShortUrl)
    (h : k0 ≠ k) : getUrl (insertUrl s k v) k0 = getUrl s k0 := by
  induction s with
  | nil => simp [insertUrl, getUrl, Ne.symm h]
  | cons kv rest ih =>
    by_cases h1 : kv.1 = k
    · subst h1
      simp [insertUrl, getUrl, Ne.symm h]
    · by_cases h2 : kv.1 = k0
      · simp [insertUrl, getUrl, h1, h2, h]
      · simp [insertUrl, getUrl, h1, h2, ih]

theorem countKey_append (s t : KnownUrls) (k : LongURL) :
    countKey (s ++ t) k = countKey s k + countKey t k := by
  induction s with
  | nil => simp [countKey]
  | cons kv rest ih => simp [countKey, ih]; omega

theorem countKey_insertUrl_ne (s : KnownUrls) (k k0 : LongURL) (v : ShortUrl)
    (h : k0 ≠ k) : countKey (insertUrl s k v) k0 = countKey s k0 := by
  induction s with
  | nil => simp [insertUrl, countKey, Ne.symm h]
  | cons kv rest ih =>
    by_cases h1 : kv.1 = k
    · subst h1
      simp [insertUrl, countKey, Ne.symm h]
    · simp [insertUrl, countKey, h1, ih]

theorem mem_insertUrl (s : KnownUrls) (k : LongURL) (v : ShortUrl)
    (kv : LongURL × ShortUrl) (h : kv ∈ insertUrl s k v) : kv ∈ s ∨ kv = (k, v) := by
  induction s with
  | nil => simp [insertUrl] at h; simp [h]
  | cons kv0 rest ih =>
    by_cases h1 : kv0.1 = k
    · simp [insertUrl, h1] at h
      rcases h with h | h
      · right; simp [h]
      · left; exact List.mem_cons_of_mem kv0 h
    · simp [insertUrl, h1] at h
      rcases h with h | h
      · left; simp [h]
      · rcases ih h with h2 | h2
        · left; exact List.mem_cons_of_mem kv0 h2
        · right; exact h2

theorem findLong_eq_none_iff (s : KnownUrls) (t : ShortUrl) :
    findLong s t = none ↔ ∀ kv ∈ s, kv.2 ≠ t := by
  induction s with
  | nil => simp [findLong]
  | cons kv rest ih =>
    simp only [findLong, List.mem_cons, forall_eq_or_imp]
    by_cases h : kv.2 = t
    · simp [h]
    · simp [h, ih]

theorem findLong_mem (s : KnownUrls) (t : ShortUrl) (k : LongURL)
    (h : findLong s t = some k) : (k, t) ∈ s := by
  induction s with
  | nil => simp [findLong] at h
  | cons kv rest ih =>
    by_cases h1 : kv.2 = t
    · simp only [findLong, if_pos h1, Option.some.injEq] at h
      subst h
      subst h1
      exact List.mem_cons_self _ _
    · simp [findLong, h1] at h
      exact List.mem_cons_of_mem kv (ih h)

theorem findLong_append_fresh (s : KnownUrls) (k : LongURL) (v : ShortUrl)
    (h : ∀ kv ∈ s, kv.2 ≠ v) : findLong (s ++ [(k, v)]) v = some k := by
  induction s with
  | nil => simp [findLong]
  | cons kv rest ih =>
    have h1 : kv.2 ≠ v := h kv (List.mem_cons_self kv rest)
    simp [findLong, h1]
    exact ih (fun kv2 hm => h kv2 (List.mem_cons_of_mem kv hm))

/-! ## Unfolding lemmas for the shorten handler -/

theorem shorten_parse_fail {raw : String} (n : String) (s : KnownUrls)
    (h : urlParse raw = none) : shorten n raw s = (.badRequest, s) := by
  simp [shorten, h]

theorem shorten_hit {raw : String} {p : Url} {v : ShortUrl} (n : String) (s : KnownUrls)
    (h : urlParse raw = some p) (h2 : getUrl s p.to_string = some v) :
    shorten n raw s = (.ok v, s) := by
  simp [shorten, h, h2]

theorem shorten_miss {raw : String} {p : Url} (n : String) (s : KnownUrls)
    (h : urlParse raw = some p) (h2 : getUrl s p.to_string = none) :
    shorten n raw s =
      (.ok ("short.fe/" ++ n), insertUrl s p.to_string ("short.fe/" ++ n)) := by
  simp [shorten, h, h2]

/-! ## Step and trace lemmas -/

theorem countKey_insertUrl_fresh (s : KnownUrls) (k : LongURL) (v : ShortUrl)
    (h : ∀ kv ∈ s, kv.1 ≠ k) : countKey (insertUrl s k v) k = 1 := by
  rw [insertUrl_of_not_mem s k v h, countKey_append, countKey_eq_zero s k h]
  simp [countKey]

theorem shorten_snd_preserves_getUrl (n raw : String) (s : KnownUrls)
    (k : LongURL) (v : ShortUrl) (h : getUrl s k = some v) :
    getUrl (shorten n raw s).2 k = some v := by
  cases hp : urlParse raw with
  | none => rw [shorten_parse_fail n s hp]; exact h
  | some p =>
    cases hg : getUrl s p.to_string with
    | some v0 => rw [shorten_hit n s hp hg]; exact h
    | none =>
      rw [shorten_miss n s hp hg]
      have hne : k ≠ p.to_string := by
        intro hc
        rw [hc, hg] at h
        exact Option.noConfusion h
      simpa [getUrl_insertUrl_ne s p.to_string k _ hne] using h

theorem stepShorten_other (s : KnownUrls) (op : Op) (k : LongURL)
    (h : keyOf op.rawUrl ≠ some k) :
    getUrl (stepShorten s op) k = getUrl s k ∧
      countKey (stepShorten s op) k = countKey s k := by
  cases hp : urlParse op.rawUrl with
  | none =>
    unfold stepShorten
    rw [shorten_parse_fail op.nanoidVal s hp]
    exact ⟨rfl, rfl⟩
  | some p =>
    have hkey : p.to_string ≠ k := by
      intro hc
      exact h (by simp [keyOf, hp, hc])
    cases hg : getUrl s p.to_string with
    | some v0 =>
      unfold stepShorten
      rw [shorten_hit op.nanoidVal s hp hg]
      exact ⟨rfl, rfl⟩
    | none =>
      unfold stepShorten
      rw [shorten_miss op.nanoidVal s hp hg]
      exact ⟨getUrl_insertUrl_ne s p.to_string k _ (Ne.symm hkey),
        countKey_insertUrl_ne s p.to_string k _ (Ne.symm hkey)⟩

theorem mem_shorten_snd (n raw : String) (s : KnownUrls)
    (kv : LongURL × ShortUrl) (h : kv ∈ s) : kv ∈ (shorten n raw s).2 := by
  cases hp : urlParse raw with
  | none => rw [shorten_parse_fail n s hp]; exact h
  | some p =>
    cases hg : getUrl s p.to_string with
    | some v0 => rw [shorten_hit n s hp hg]; exact h
    | none =>
      rw [shorten_miss n s hp hg]
      rw [insertUrl_of_not_mem s p.to_string _ ((getUrl_eq_none_iff s _).mp hg)]
      exact List.mem_append_left _ h

theorem mem_stepShorten (s : KnownUrls) (op : Op) (kv : LongURL × ShortUrl)
    (h : kv ∈ stepShorten s op) :
    kv ∈ s ∨ kv.2 = "short.fe/" ++ op.nanoidVal := by
  unfold stepShorten at h
  cases hp : urlParse op.rawUrl with
  | none => rw [shorten_parse_fail op.nanoidVal s hp] at h; exact Or.inl h
  | some p =>
    cases hg : getUrl s p.to_string with
    | some v0 => rw [shorten_hit op.nanoidVal s hp hg] at h; exact Or.inl h
    | none =>
      rw [shorten_miss op.nanoidVal s hp hg] at h
      rcases mem_insertUrl s p.to_string _ kv h with h2 | h2
      · exact Or.inl h2
      · right
        rw [h2]

theorem runShorten_nil (s : KnownUrls) : runShorten s [] = s := rfl

theorem runShorten_cons (s : KnownUrls) (op : Op) (ops : List Op) :
    runShorten s (op :: ops) = runShorten (stepShorten s op) ops := rfl

theorem mem_runShorten (ops : List Op) (s : KnownUrls) (kv : LongURL × ShortUrl)
    (h : kv ∈ runShorten s ops) :
    kv ∈ s ∨ ∃ op ∈ ops, kv.2 = "short.fe/" ++ op.nanoidVal := by
  induction ops generalizing s with
  | nil => exact Or.inl h
  | cons op rest ih =>
    rw [runShorten_cons] at h
    rcases ih (stepShorten s op) h with h2 | h2
    · rcases mem_stepShorten s op kv h2 with h3 | h3
      · exact Or.inl h3
      · exact Or.inr ⟨op, List.mem_cons_self op rest, h3⟩
    · rcases h2 with ⟨op2, hmem, heq⟩
      exact Or.inr ⟨op2, List.mem_cons_of_mem op hmem, heq⟩

/-! ## The check-then-insert critical section over traces -/

/-- Once the key of `u` holds `r` with a single entry, every later
invocation of the trace that submits `u` hits the existing entry and
returns `r`, and invocations for other keys leave the entry alone. -/
theorem shorten_settled (u k : String) (r : ShortUrl) (hu : keyOf u = some k) :
    ∀ (ops : List Op) (s : KnownUrls),
      (∀ op ∈ ops, op.rawUrl = u ∨ keyOf op.rawUrl ≠ some k) →
      getUrl s k = some r → countKey s k = 1 →
      responsesFor u s ops = List.replicate (countU u ops) (ShortenResp.ok r) ∧
        getUrl (runShorten s ops) k = some r ∧ countKey (runShorten s ops) k = 1
  | [], _, _, hget, hcnt => ⟨rfl, hget, hcnt⟩
  | op :: rest, s, hops, hget, hcnt => by
    have htail : ∀ op2 ∈ rest, op2.rawUrl = u ∨ keyOf op2.rawUrl ≠ some k :=
      fun op2 hm => hops op2 (List.mem_cons_of_mem op hm)
    by_cases hop : op.rawUrl = u
    · cases hp : urlParse u with
      | none => simp [keyOf, hp] at hu
      | some p =>
        have hk : p.to_string = k := by simpa [keyOf, hp] using hu
        have hsh : shorten op.nanoidVal op.rawUrl s = (.ok r, s) := by
          rw [hop]
          exact shorten_hit op.nanoidVal s hp (by rw [hk]; exact hget)
        have hstep : stepShorten s op = s := by unfold stepShorten; rw [hsh]
        rcases shorten_settled u k r hu rest s htail hget hcnt with ⟨h1, h2, h3⟩
        refine ⟨?_, ?_, ?_⟩
        · simp only [responsesFor, if_pos hop, hsh, hstep, h1, countU]
          simp [List.replicate_succ]
        · rw [runShorten_cons, hstep]; exact h2
        · rw [runShorten_cons, hstep]; exact h3
    · have hne : keyOf op.rawUrl ≠ some k :=
        (hops op (List.mem_cons_self op rest)).resolve_left hop
      rcases stepShorten_other s op k hne with ⟨hg, hc⟩
      rcases shorten_settled u k r hu rest (stepShorten s op) htail
          (by rw [hg]; exact hget) (by rw [hc]; exact hcnt) with ⟨h1, h2, h3⟩
      refine ⟨?_, ?_, ?_⟩
      · simp only [responsesFor, if_neg hop, h1, countU]
        simp
      · rw [runShorten_cons]; exact h2
      · rw [runShorten_cons]; exact h3

/-- From a state where the key of `u` is absent, any trace whose other
invocations use different keys creates exactly one entry for `u`, and
every invocation submitting `u` receives one identical response. -/
theorem shorten_first_insert (u k : String) (hu : keyOf u = some k) :
    ∀ (ops : List Op) (s : KnownUrls),
      (∀ op ∈ ops, op.rawUrl = u ∨ keyOf op.rawUrl ≠ some k) →
      getUrl s k = none →
      (∃ op ∈ ops, op.rawUrl = u) →
      ∃ r, responsesFor u s ops = List.replicate (countU u ops) (ShortenResp.ok r) ∧
        getUrl (runShorten s ops) k = some r ∧ countKey (runShorten s ops) k = 1
  | [], _, _, _, hex => absurd hex (by simp)
  | op :: rest, s, hops, habs, hex => by
    have htail : ∀ op2 ∈ rest, op2.rawUrl = u ∨ keyOf op2.rawUrl ≠ some k :=
      fun op2 hm => hops op2 (List.mem_cons_of_mem op hm)
    by_cases hop : op.rawUrl = u
    · cases hp : urlParse u with
      | none => simp [keyOf, hp] at hu
      | some p =>
        have hk : p.to_string = k := by simpa [keyOf, hp] using hu
        have habs0 : getUrl s p.to_string = none := by rw [hk]; exact habs
        have hsh : shorten op.nanoidVal op.rawUrl s =
            (.ok ("short.fe/" ++ op.nanoidVal),
              insertUrl s p.to_string ("short.fe/" ++ op.nanoidVal)) := by
          rw [hop]
          exact shorten_miss op.nanoidVal s hp habs0
        have hfresh : ∀ kv ∈ s, kv.1 ≠ p.to_string :=
          (getUrl_eq_none_iff s _).mp habs0
        have hget2 : getUrl (insertUrl s p.to_string ("short.fe/" ++ op.nanoidVal)) k =
            some ("short.fe/" ++ op.nanoidVal) := by
          rw [← hk]; exact getUrl_insertUrl_self s _ _
        have hcnt2 : countKey (insertUrl s p.to_string ("short.fe/" ++ op.nanoidVal)) k = 1 := by
          rw [← hk]; exact countKey_insertUrl_fresh s _ _ hfresh
        have hstep : stepShorten s op =
            insertUrl s p.to_string ("short.fe/" ++ op.nanoidVal) := by
          unfold stepShorten; rw [hsh]
        rcases shorten_settled u k ("short.fe/" ++ op.nanoidVal) hu rest _ htail hget2 hcnt2
          with ⟨h1, h2, h3⟩
        refine ⟨"short.fe/" ++ op.nanoidVal, ?_, ?_, ?_⟩
        · simp only [responsesFor, if_pos hop, hsh, hstep, h1, countU]
          simp [List.replicate_succ]
        · rw [runShorten_cons, hstep]; exact h2
        · rw [runShorten_cons, hstep]; exact h3
    · have hne : keyOf op.rawUrl ≠ some k :=
        (hops op (List.mem_cons_self op rest)).resolve_left hop
      rcases stepShorten_other s op k hne with ⟨hg, hc⟩
      have hex2 : ∃ op2 ∈ rest, op2.rawUrl = u := by
        rcases hex with ⟨op0, hm, he⟩
        rcases List.mem_cons.mp hm with h0 | h0
        · exact absurd (h0 ▸ he) hop
        · exact ⟨op0, h0, he⟩
      rcases shorten_first_insert u k hu rest (stepShorten s op) htail
          (by rw [hg]; exact habs) hex2 with ⟨r, h1, h2, h3⟩
      refine ⟨r, ?_, ?_, ?_⟩
      · simp only [responsesFor, if_neg hop, h1, countU]
        simp
      · rw [runShorten_cons]; exact h2
      · rw [runShorten_cons]; exact h3

/-- Scheme-less input (no colon anywhere) never parses. -/
theorem splitSchemeAux_none (l acc : List Char) (h : ∀ c ∈ l, c ≠ ':') :
    splitSchemeAux l acc = none := by
  induction l generalizing acc with
  | nil => rfl
  | cons c rest ih =>
    have hc : c ≠ ':' := h c (List.mem_cons_self c rest)
    simp only [splitSchemeAux, if_neg hc]
    by_cases h2 : isSchemeChar c
    · simp only [if_pos h2]
      exact ih _ (fun c2 hm => h c2 (List.mem_cons_of_mem c hm))
    · simp only [if_neg h2]

/-! ## Claim C1 -/

/-- C1 as stated is false on the code: `shorten` inserts
`short.fe/nanoid` without ever comparing it against the values already in
the map, so when the generator returns the code already used for
`https://a.com/`, the call for `https://b.com` inserts the same short URL
a second time and the Mapping is no longer injective; no regeneration
happens. -/
theorem c1_counterexample :
    ¬ injectiveValues
        (stepShorten [("https://a.com/", "short.fe/AAAAAAAAAA")]
          { nanoidVal := "AAAAAAAAAA", rawUrl := "https://b.com" }) := by
  decide

/-- C1 amended: a `shorten` step preserves injectivity of the Mapping
provided the generated short URL is not already a stored value; the code
contains no collision check, so injectivity holds only under this
freshness assumption on the generator, not for every generator
behaviour. -/
theorem c1_injective_of_fresh_code (s : KnownUrls) (op : Op)
    (hinj : injectiveValues s)
    (hfresh : ∀ kv ∈ s, kv.2 ≠ "short.fe/" ++ op.nanoidVal) :
    injectiveValues (stepShorten s op) := by
  unfold stepShorten
  cases hp : urlParse op.rawUrl with
  | none => rw [shorten_parse_fail op.nanoidVal s hp]; exact hinj
  | some p =>
    cases hg : getUrl s p.to_string with
    | some v => rw [shorten_hit op.nanoidVal s hp hg]; exact hinj
    | none =>
      rw [shorten_miss op.nanoidVal s hp hg]
      show injectiveValues (insertUrl s p.to_string ("short.fe/" ++ op.nanoidVal))
      rw [insertUrl_of_not_mem s _ _ ((getUrl_eq_none_iff s _).mp hg)]
      intro kv1 h1 kv2 h2 heq
      rcases List.mem_append.mp h1 with h1 | h1 <;>
        rcases List.mem_append.mp h2 with h2 | h2
      · exact hinj kv1 h1 kv2 h2 heq
      · exfalso
        have h2e : kv2 = (p.to_string, "short.fe/" ++ op.nanoidVal) := by
          simpa using h2
        exact hfresh kv1 h1 (by rw [heq, h2e])
      · exfalso
        have h1e : kv1 = (p.to_string, "short.fe/" ++ op.nanoidVal) := by
          simpa using h1
        exact hfresh kv2 h2 (by rw [← heq, h1e])
      · have h1e : kv1 = (p.to_string, "short.fe/" ++ op.nanoidVal) := by
          simpa using h1
        have h2e : kv2 = (p.to_string, "short.fe/" ++ op.nanoidVal) := by
          simpa using h2
        rw [h1e, h2e]

theorem c1_injective_of_fresh_code_witness :
    injectiveValues
      (stepShorten [("https://a.com/", "short.fe/AAAAAAAAAA")]
        { nanoidVal := "BBBBBBBBBB", rawUrl := "https://b.com" }) :=
  c1_injective_of_fresh_code [("https://a.com/", "short.fe/AAAAAAAAAA")]
    { nanoidVal := "BBBBBBBBBB", rawUrl := "https://b.com" }
    (by decide) (by decide)

/-! ## Claim C5 -/

/-- C5: for every valid URL, two successive `shorten` calls (whatever
strings the generator produces) return the same short-URL string, and the
second call leaves the Mapping exactly as the first left it. -/
theorem c5_idempotent (n1 n2 u : String) (p : Url) (s : KnownUrls)
    (hu : urlParse u = some p) :
    shorten n2 u (shorten n1 u s).2 = ((shorten n1 u s).1, (shorten n1 u s).2) := by
  cases hg : getUrl s p.to_string with
  | some v =>
    rw [shorten_hit n1 s hu hg]
    exact shorten_hit n2 s hu hg
  | none =>
    rw [shorten_miss n1 s hu hg]
    exact shorten_hit n2 _ hu (getUrl_insertUrl_self s _ _)

theorem c5_idempotent_witness :
    shorten "BBBBBBBBBB" "https://example.com"
        (shorten "AAAAAAAAAA" "https://example.com" []).2 =
      ((shorten "AAAAAAAAAA" "https://example.com" []).1,
        (shorten "AAAAAAAAAA" "https://example.com" []).2) :=
  c5_idempotent "AAAAAAAAAA" "BBBBBBBBBB" "https://example.com"
    exampleUrl
    [] (by decide)

/-! ## Claim C6 -/

/-- C6: `shorten` answers the 400-class BadRequest exactly when the raw
input does not parse as an absolute URL, and on that failure the Mapping
is completely unchanged (parsing happens before the write lock is taken);
when parsing succeeds the handler never returns an error.  Input without
any colon (hence without a scheme) never parses; the empty string and
`not a url` fail; `https://example.com` parses. -/
theorem c6_validation (n raw : String) (s : KnownUrls) :
    ((shorten n raw s).1 = .badRequest ↔ urlParse raw = none) ∧
      (urlParse raw = none → shorten n raw s = (.badRequest, s)) ∧
      ((∀ c ∈ raw.data, c ≠ ':') → urlParse raw = none) ∧
      urlParse "" = none ∧ urlParse "not a url" = none ∧
      (urlParse "https://example.com").isSome = true := by
  refine ⟨?_, fun h => shorten_parse_fail n s h, fun h => ?_, by decide, by decide, by decide⟩
  · constructor
    · intro hbad
      cases hp : urlParse raw with
      | none => rfl
      | some p =>
        exfalso
        cases hg : getUrl s p.to_string with
        | some v => rw [shorten_hit n s hp hg] at hbad; exact ShortenResp.noConfusion hbad
        | none => rw [shorten_miss n s hp hg] at hbad; exact ShortenResp.noConfusion hbad
    · intro hp
      rw [shorten_parse_fail n s hp]
  · unfold urlParse
    rw [splitSchemeAux_none raw.data [] h]

theorem c6_validation_witness :
    (shorten "AAAAAAAAAA" "not a url" []).1 = .badRequest ∧
      shorten "AAAAAAAAAA" "not a url" [] = (.badRequest, []) ∧
      urlParse "missing scheme" = none ∧
      urlParse "" = none ∧ urlParse "not a url" = none ∧
      (urlParse "https://example.com").isSome = true :=
  ⟨(c6_validation "AAAAAAAAAA" "not a url" []).1.mpr (by decide),
    (c6_validation "AAAAAAAAAA" "not a url" []).2.1 (by decide),
    (c6_validation "AAAAAAAAAA" "missing scheme" []).2.2.1 (by decide),
    (c6_validation "AAAAAAAAAA" "" []).2.2.2.1,
    (c6_validation "AAAAAAAAAA" "not a url" []).2.2.2.2.1,
    (c6_validation "AAAAAAAAAA" "https://example.com" []).2.2.2.2.2⟩

/-! ## Claim C8 -/

/-- C8: the Mapping is append-only: every pair present before a `shorten`
call is still present unchanged after it, the value stored at any key is
never overwritten, and `debugger` (Snapshot) returns the Mapping itself
without modifying it; `redirect` and `debugger` hold only the read lock
and produce no new state by construction. -/
theorem c8_append_only (n raw : String) (s : KnownUrls) :
    (∀ kv ∈ s, kv ∈ (shorten n raw s).2) ∧
      (∀ k v, getUrl s k = some v → getUrl (shorten n raw s).2 k = some v) ∧
      debugger s = s :=
  ⟨fun kv h => mem_shorten_snd n raw s kv h,
    fun k v h => shorten_snd_preserves_getUrl n raw s k v h, rfl⟩

theorem c8_append_only_witness :
    ("https://a.com/", "short.fe/AAAAAAAAAA") ∈
        (shorten "BBBBBBBBBB" "https://b.com"
          [("https://a.com/", "short.fe/AAAAAAAAAA")]).2 ∧
      getUrl (shorten "BBBBBBBBBB" "https://b.com"
          [("https://a.com/", "short.fe/AAAAAAAAAA")]).2 "https://a.com/" =
        some "short.fe/AAAAAAAAAA" ∧
      debugger [("https://a.com/", "short.fe/AAAAAAAAAA")] =
        [("https://a.com/", "short.fe/AAAAAAAAAA")] :=
  ⟨(c8_append_only "BBBBBBBBBB" "https://b.com"
      [("https://a.com/", "short.fe/AAAAAAAAAA")]).1
      ("https://a.com/", "short.fe/AAAAAAAAAA") (by decide),
    (c8_append_only "BBBBBBBBBB" "https://b.com"
      [("https://a.com/", "short.fe/AAAAAAAAAA")]).2.1
      "https://a.com/" "short.fe/AAAAAAAAAA" (by decide),
    (c8_append_only "BBBBBBBBBB" "https://b.com"
      [("https://a.com/", "short.fe/AAAAAAAAAA")]).2.2⟩

/-! ## Claim C2 -/

/-- C2: the existence check and the insertion of `shorten` run under one
exclusive write-lock acquisition, so each invocation is a single atomic
step of any interleaving; for every trace in which N ≥ 1 invocations
submit the same valid URL `u` (not yet present) and every other invocation
uses a different mapping key, exactly one Mapping entry for `u` exists at
the end and all N invocations receive the identical short-URL string. -/
theorem c2_concurrent_getOrCreate (u : String) (p : Url) (s : KnownUrls)
    (ops : List Op)
    (hu : urlParse u = some p)
    (habs : getUrl s p.to_string = none)
    (hops : ∀ op ∈ ops, op.rawUrl = u ∨ keyOf op.rawUrl ≠ some p.to_string)
    (hex : ∃ op ∈ ops, op.rawUrl = u) :
    ∃ r, responsesFor u s ops = List.replicate (countU u ops) (ShortenResp.ok r) ∧
      getUrl (runShorten s ops) p.to_string = some r ∧
      countKey (runShorten s ops) p.to_string = 1 :=
  shorten_first_insert u p.to_string (by simp [keyOf, hu]) ops s hops habs hex

theorem c2_concurrent_getOrCreate_witness :
    ∃ r, responsesFor "https://example.com" []
        [{ nanoidVal := "AAAAAAAAAA", rawUrl := "https://example.com" },
          { nanoidVal := "CCCCCCCCCC", rawUrl := "https://other.com" },
          { nanoidVal := "BBBBBBBBBB", rawUrl := "https://example.com" }] =
      List.replicate
        (countU "https://example.com"
          [{ nanoidVal := "AAAAAAAAAA", rawUrl := "https://example.com" },
            { nanoidVal := "CCCCCCCCCC", rawUrl := "https://other.com" },
            { nanoidVal := "BBBBBBBBBB", rawUrl := "https://example.com" }])
        (ShortenResp.ok r) ∧
      getUrl (runShorten []
        [{ nanoidVal := "AAAAAAAAAA", rawUrl := "https://example.com" },
          { nanoidVal := "CCCCCCCCCC", rawUrl := "https://other.com" },
          { nanoidVal := "BBBBBBBBBB", rawUrl := "https://example.com" }])
        (Url.to_string exampleUrl) = some r ∧
      countKey (runShorten []
        [{ nanoidVal := "AAAAAAAAAA", rawUrl := "https://example.com" },
          { nanoidVal := "CCCCCCCCCC", rawUrl := "https://other.com" },
          { nanoidVal := "BBBBBBBBBB", rawUrl := "https://example.com" }])
        (Url.to_string exampleUrl) = 1 :=
  c2_concurrent_getOrCreate "https://example.com"
    exampleUrl
    []
    [{ nanoidVal := "AAAAAAAAAA", rawUrl := "https://example.com" },
      { nanoidVal := "CCCCCCCCCC", rawUrl := "https://other.com" },
      { nanoidVal := "BBBBBBBBBB", rawUrl := "https://example.com" }]
    (by decide) (by decide) (by decide) (by decide)

/-! ## Claim C3 -/

/-- C3 as stated is false on the code: the map key and hence the Location
header hold the parsed serialization, not the submitted string; shortening
the submitted string `https://google.com` and resolving the returned code
yields `https://google.com/`, which differs from the submission. -/
theorem c3_counterexample :
    redirect "AbCdEfGhIj"
        (shorten "AbCdEfGhIj" "https://google.com" []).2 =
      .seeOther "https://google.com/" ∧
    "https://google.com/" ≠ "https://google.com" := by
  decide

/-- C3 amended: for every valid URL `u` whose key is not yet present,
shortening with a fresh code `c` returns `short.fe/c`, and resolving `c`
redirects to the serialization of the parse of `u` — equal to the
submitted string exactly when that string is its own serialization. -/
theorem c3_round_trip_serialized (c u : String) (p : Url) (s : KnownUrls)
    (hu : urlParse u = some p)
    (habs : getUrl s p.to_string = none)
    (hfresh : ∀ kv ∈ s, kv.2 ≠ "short.fe/" ++ c) :
    (shorten c u s).1 = .ok ("short.fe/" ++ c) ∧
      redirect c (shorten c u s).2 = .seeOther p.to_string := by
  rw [shorten_miss c s hu habs]
  refine ⟨rfl, ?_⟩
  show redirect c (insertUrl s p.to_string ("short.fe/" ++ c)) = .seeOther p.to_string
  unfold redirect
  rw [insertUrl_of_not_mem s _ _ ((getUrl_eq_none_iff s _).mp habs)]
  rw [findLong_append_fresh s p.to_string _ hfresh]

theorem c3_round_trip_serialized_witness :
    (shorten "AbCdEfGhIj" "https://google.com" []).1 =
        .ok ("short.fe/" ++ "AbCdEfGhIj") ∧
      redirect "AbCdEfGhIj" (shorten "AbCdEfGhIj" "https://google.com" []).2 =
        .seeOther (Url.to_string googleUrl) :=
  c3_round_trip_serialized "AbCdEfGhIj" "https://google.com"
    googleUrl
    [] (by decide) (by decide) (by decide)

/-! ## Claim C4 -/

/-- C4 as stated is false on the code: after shortening the submission
`https://google.com` from the empty Mapping, the single Snapshot entry is
keyed by the serialization `https://google.com/`, not by the submitted
string, and Resolve redirects to `https://google.com/` rather than to
`https://google.com`. -/
theorem c4_counterexample :
    debugger (shorten "AbCdEfGhIj" "https://google.com" []).2 =
        [("https://google.com/", "short.fe/AbCdEfGhIj")] ∧
      "https://google.com/" ≠ "https://google.com" ∧
      redirect "AbCdEfGhIj" (shorten "AbCdEfGhIj" "https://google.com" []).2 ≠
        .seeOther "https://google.com" := by
  decide

/-- C4 amended: starting from the empty Mapping, shortening
`https://google.com` with generated 10-character code `n` returns
`short.fe/` ++ `n`; calling again with the same URL returns the identical
string and leaves the state unchanged; Resolve of `n` redirects to the
stored key `https://google.com/` (the parsed serialization of the
submission); Resolve of a code the generator never issued answers
not-found; and the Snapshot holds exactly one entry, keyed by
`https://google.com/` with value `short.fe/` ++ `n`. -/
theorem c4_scenario (n n2 : String) (hn : isNanoid10 n = true) (hne : n2 ≠ n) :
    n.data.length = 10 ∧
      (shorten n "https://google.com" []).1 = .ok ("short.fe/" ++ n) ∧
      shorten n2 "https://google.com" (shorten n "https://google.com" []).2 =
        (.ok ("short.fe/" ++ n), (shorten n "https://google.com" []).2) ∧
      redirect n (shorten n "https://google.com" []).2 =
        .seeOther "https://google.com/" ∧
      redirect n2 (shorten n "https://google.com" []).2 = .notFound ∧
      debugger (shorten n "https://google.com" []).2 =
        [("https://google.com/", "short.fe/" ++ n)] := by
  have hg : urlParse "https://google.com" =
      some googleUrl := by
    decide
  have hkey : Url.to_string googleUrl = "https://google.com/" := rfl
  have habs : getUrl []
      (Url.to_string googleUrl) = none := rfl
  have hsh := shorten_miss n [] hg habs
  rw [hkey] at hsh
  have hstate : (shorten n "https://google.com" []).2 =
      [("https://google.com/", "short.fe/" ++ n)] := by
    rw [hsh]
    rfl
  have hvalne : "short.fe/" ++ n ≠ "short.fe/" ++ n2 := by
    intro hc
    exact hne (string_append_left_cancel hc).symm
  refine ⟨?_, ?_, ?_, ?_, ?_, ?_⟩
  · have := (Bool.and_eq_true _ _).mp hn
    simpa [isNanoid10] using (of_decide_eq_true this.1)
  · rw [hsh]
  · rw [hstate]
    have hhit : getUrl [("https://google.com/", "short.fe/" ++ n)]
        (Url.to_string googleUrl) = some ("short.fe/" ++ n) := by
      rw [hkey]
      simp [getUrl]
    exact shorten_hit n2 _ hg hhit
  · rw [hstate]
    simp [redirect, findLong]
  · rw [hstate]
    simp [redirect, findLong, hvalne]
  · rw [hstate]
    rfl

theorem c4_scenario_witness :
    ("AbCdEfGhIj" : String).data.length = 10 ∧
      (shorten "AbCdEfGhIj" "https://google.com" []).1 =
        .ok ("short.fe/" ++ "AbCdEfGhIj") ∧
      shorten "zzzzzzzzzz" "https://google.com"
          (shorten "AbCdEfGhIj" "https://google.com" []).2 =
        (.ok ("short.fe/" ++ "AbCdEfGhIj"),
          (shorten "AbCdEfGhIj" "https://google.com" []).2) ∧
      redirect "AbCdEfGhIj" (shorten "AbCdEfGhIj" "https://google.com" []).2 =
        .seeOther "https://google.com/" ∧
      redirect "zzzzzzzzzz" (shorten "AbCdEfGhIj" "https://google.com" []).2 =
        .notFound ∧
      debugger (shorten "AbCdEfGhIj" "https://google.com" []).2 =
        [("https://google.com/", "short.fe/" ++ "AbCdEfGhIj")] :=
  c4_scenario "AbCdEfGhIj" "zzzzzzzzzz" (by decide) (by decide)

theorem getUrl_mem (s : KnownUrls) (k : LongURL) (v : ShortUrl)
    (h : getUrl s k = some v) : (k, v) ∈ s := by
  induction s with
  | nil => simp [getUrl] at h
  | cons kv rest ih =>
    by_cases h1 : kv.1 = k
    · simp only [getUrl, if_pos h1, Option.some.injEq] at h
      subst h
      subst h1
      exact List.mem_cons_self _ _
    · simp only [getUrl, if_neg h1] at h
      exact List.mem_cons_of_mem kv (ih h)

theorem redirect_seeOther_iff (c : String) (s : KnownUrls) (k : LongURL) :
    redirect c s = .seeOther k ↔ findLong s ("short.fe/" ++ c) = some k := by
  unfold redirect
  cases hf : findLong s ("short.fe/" ++ c) with
  | none => simp
  | some k0 => simp

theorem redirect_notFound_iff (c : String) (s : KnownUrls) :
    redirect c s = .notFound ↔ findLong s ("short.fe/" ++ c) = none := by
  unfold redirect
  cases hf : findLong s ("short.fe/" ++ c) with
  | none => simp
  | some k0 => simp

/-! ## Claim C7 -/

/-- C7: `redirect` answers `303 See Other` with the key of an entry whose
value equals `short.fe/` followed by the requested code when one exists,
answers the ordinary `404 Not Found` variant exactly when no entry's value
matches, and a code never issued by the generator during a trace from the
empty Mapping always resolves to not-found. -/
theorem c7_resolve (c : String) (s : KnownUrls) (ops : List Op) :
    (∀ k, redirect c s = .seeOther k → (k, "short.fe/" ++ c) ∈ s) ∧
      ((∃ kv ∈ s, kv.2 = "short.fe/" ++ c) →
        ∃ k, redirect c s = .seeOther k ∧ (k, "short.fe/" ++ c) ∈ s) ∧
      (redirect c s = .notFound ↔ ∀ kv ∈ s, kv.2 ≠ "short.fe/" ++ c) ∧
      ((∀ op ∈ ops, op.nanoidVal ≠ c) →
        redirect c (runShorten [] ops) = .notFound) := by
  refine ⟨?_, ?_, ?_, ?_⟩
  · intro k h
    exact findLong_mem s _ k ((redirect_seeOther_iff c s k).mp h)
  · rintro ⟨kv, hm, he⟩
    cases hf : findLong s ("short.fe/" ++ c) with
    | none => exact absurd he ((findLong_eq_none_iff s _).mp hf kv hm)
    | some k =>
      exact ⟨k, (redirect_seeOther_iff c s k).mpr hf, findLong_mem s _ k hf⟩
  · rw [redirect_notFound_iff]
    exact findLong_eq_none_iff s _
  · intro h
    rw [redirect_notFound_iff]
    rw [findLong_eq_none_iff]
    intro kv hm heq
    rcases mem_runShorten ops [] kv hm with h2 | h2
    · simp at h2
    · rcases h2 with ⟨op, hop, he⟩
      rw [he] at heq
      exact h op hop (string_append_left_cancel heq)

theorem c7_resolve_witness :
    ("https://google.com/", "short.fe/" ++ "AbCdEfGhIj") ∈
        [("https://google.com/", "short.fe/AbCdEfGhIj")] ∧
      redirect "zzzzzzzzzz" [("https://google.com/", "short.fe/AbCdEfGhIj")] =
        .notFound ∧
      redirect "zzzzzzzzzz"
          (runShorten []
            [{ nanoidVal := "AbCdEfGhIj", rawUrl := "https://google.com" }]) =
        .notFound :=
  ⟨(c7_resolve "AbCdEfGhIj" [("https://google.com/", "short.fe/AbCdEfGhIj")] []).1
      "https://google.com/" (by decide),
    (c7_resolve "zzzzzzzzzz" [("https://google.com/", "short.fe/AbCdEfGhIj")] []).2.2.1.mpr
      (by decide),
    (c7_resolve "zzzzzzzzzz" []
        [{ nanoidVal := "AbCdEfGhIj", rawUrl := "https://google.com" }]).2.2.2
      (by decide)⟩

/-! ## Claim C9 -/

/-- C9: the Mapping key stored by `shorten` is the serialization of the
parsed URL, not the raw submitted string: a fresh submission appends the
entry keyed by `Url::to_string` of the parse; a second submission hits the
same entry — leaving the state unchanged — exactly when its parsed
serialization equals the first one; and `https://google.com` parses to a
URL serializing as `https://google.com/`, so that submission is stored
under the slash-terminated form. -/
theorem c9_normalized_key (raw raw2 n n2 : String) (p p2 : Url) (s : KnownUrls)
    (hu : urlParse raw = some p) (hu2 : urlParse raw2 = some p2)
    (habs : getUrl s p.to_string = none) (habs2 : getUrl s p2.to_string = none) :
    (shorten n raw s).2 = s ++ [(p.to_string, "short.fe/" ++ n)] ∧
      ((shorten n2 raw2 (shorten n raw s).2).2 = (shorten n raw s).2 ↔
        p2.to_string = p.to_string) ∧
      urlParse "https://google.com" = some googleUrl ∧
      googleUrl.to_string = "https://google.com/" := by
  have hins : (shorten n raw s).2 = insertUrl s p.to_string ("short.fe/" ++ n) := by
    rw [shorten_miss n s hu habs]
  refine ⟨?_, ?_, by decide, rfl⟩
  · rw [hins]
    exact insertUrl_of_not_mem s _ _ ((getUrl_eq_none_iff s _).mp habs)
  · by_cases hk : p2.to_string = p.to_string
    · have hget : getUrl (shorten n raw s).2 p2.to_string = some ("short.fe/" ++ n) := by
        rw [hins, hk]
        exact getUrl_insertUrl_self s _ _
      rw [shorten_hit n2 _ hu2 hget]
      simp [hk]
    · have hget : getUrl (shorten n raw s).2 p2.to_string = none := by
        rw [hins, getUrl_insertUrl_ne s _ _ _ hk]
        exact habs2
      rw [shorten_miss n2 _ hu2 hget]
      have hne2 : ∀ kv ∈ (shorten n raw s).2, kv.1 ≠ p2.to_string :=
        (getUrl_eq_none_iff _ _).mp hget
      rw [insertUrl_of_not_mem _ _ _ hne2]
      simp only [iff_false_intro hk, iff_false]
      intro hc
      have := congrArg List.length hc
      simp at this

theorem c9_normalized_key_witness :
    (shorten "AAAAAAAAAA" "https://google.com" []).2 =
        [] ++ [(googleUrl.to_string, "short.fe/" ++ "AAAAAAAAAA")] ∧
      ((shorten "BBBBBBBBBB" "https://google.com/"
            (shorten "AAAAAAAAAA" "https://google.com" []).2).2 =
          (shorten "AAAAAAAAAA" "https://google.com" []).2 ↔
        googleUrl.to_string = googleUrl.to_string) ∧
      urlParse "https://google.com" = some googleUrl ∧
      googleUrl.to_string = "https://google.com/" :=
  c9_normalized_key "https://google.com" "https://google.com/"
    "AAAAAAAAAA" "BBBBBBBBBB" googleUrl googleUrl []
    (by decide) (by decide) (by decide) (by decide)

/-! ## Claim C10 -/

/-- C10: when every generated string obeys the nanoid contract, every
value stored during a trace from the empty Mapping — and every successful
`shorten` response — is exactly `short.fe/` followed by a 10-character
code over the URL-safe alphabet; `redirect` prepends `short.fe/` to the
raw path segment before comparing, so a request resolves exactly when the
path segment equals the bare code of some entry, and a full short URL
submitted as the path never resolves. -/
theorem c10_value_form (s : KnownUrls) (ops : List Op) (c n raw b : String) :
    ((∀ op ∈ ops, isNanoid10 op.nanoidVal = true) →
        wellFormedValues (runShorten [] ops)) ∧
      (wellFormedValues s → isNanoid10 n = true → (shorten n raw s).1 = .ok b →
        ∃ code, isNanoid10 code = true ∧ b = "short.fe/" ++ code) ∧
      ((∃ k, redirect c s = .seeOther k) ↔ ∃ kv ∈ s, kv.2 = "short.fe/" ++ c) ∧
      (wellFormedValues s → redirect ("short.fe/" ++ c) s = .notFound) := by
  refine ⟨?_, ?_, ?_, ?_⟩
  · intro h kv hm
    rcases mem_runShorten ops [] kv hm with h2 | h2
    · simp at h2
    · rcases h2 with ⟨op, hop, he⟩
      exact ⟨op.nanoidVal, h op hop, he⟩
  · intro hwf hn hok
    cases hp : urlParse raw with
    | none =>
      rw [shorten_parse_fail n s hp] at hok
      exact ShortenResp.noConfusion hok
    | some p =>
      cases hg : getUrl s p.to_string with
      | some v =>
        rw [shorten_hit n s hp hg] at hok
        have hbv : v = b := by
          simpa using hok
        rcases hwf (p.to_string, v) (getUrl_mem s _ v hg) with ⟨code, hcode, hval⟩
        exact ⟨code, hcode, by rw [← hbv]; exact hval⟩
      | none =>
        rw [shorten_miss n s hp hg] at hok
        have hbv : "short.fe/" ++ n = b := by
          simpa using hok
        exact ⟨n, hn, hbv.symm⟩
  · constructor
    · rintro ⟨k, h⟩
      exact ⟨(k, "short.fe/" ++ c),
        findLong_mem s _ k ((redirect_seeOther_iff c s k).mp h), rfl⟩
    · rintro ⟨kv, hm, he⟩
      cases hf : findLong s ("short.fe/" ++ c) with
      | none =>
        exact absurd he ((findLong_eq_none_iff s _).mp hf kv hm)
      | some k =>
        exact ⟨k, (redirect_seeOther_iff c s k).mpr hf⟩
  · intro hwf
    rw [redirect_notFound_iff, findLong_eq_none_iff]
    intro kv hm heq
    rcases hwf kv hm with ⟨code, hcode, hval⟩
    rw [hval] at heq
    have hcs : code = "short.fe/" ++ c :=
      string_append_left_cancel heq
    have hdata : code.data = ("short.fe/" ++ c).data :=
      congrArg String.data hcs
    rw [String.data_append] at hdata
    have hdot : ('.' : Char) ∈ code.data := by
      rw [hdata]
      exact List.mem_append_left _ (by decide)
    have hall : code.data.all isNanoidChar = true :=
      ((Bool.and_eq_true _ _).mp hcode).2
    have : isNanoidChar '.' = true := by
      rw [List.all_eq_true] at hall
      exact hall '.' hdot
    exact absurd this (by decide)

theorem c10_value_form_witness :
    wellFormedValues
        (runShorten []
          [{ nanoidVal := "AbCdEfGhIj", rawUrl := "https://google.com" }]) ∧
      (∃ code, isNanoid10 code = true ∧
        ("short.fe/AbCdEfGhIj" : String) = "short.fe/" ++ code) ∧
      (∃ k, redirect "AbCdEfGhIj"
          [("https://google.com/", "short.fe/AbCdEfGhIj")] = .seeOther k) ∧
      redirect ("short.fe/" ++ "AbCdEfGhIj")
          [("https://google.com/", "short.fe/AbCdEfGhIj")] = .notFound := by
  have hwf : wellFormedValues [("https://google.com/", "short.fe/AbCdEfGhIj")] := by
    intro kv hm
    simp only [List.mem_singleton] at hm
    exact ⟨"AbCdEfGhIj", by decide, by rw [hm]; rfl⟩
  refine ⟨?_, ?_, ?_, ?_⟩
  · exact (c10_value_form []
      [{ nanoidVal := "AbCdEfGhIj", rawUrl := "https://google.com" }]
      "c" "n" "raw" "b").1 (by decide)
  · exact (c10_value_form [("https://google.com/", "short.fe/AbCdEfGhIj")] []
      "c" "AbCdEfGhIj" "https://example.com" "short.fe/AbCdEfGhIj").2.1
      hwf (by decide) (by decide)
  · exact (c10_value_form [("https://google.com/", "short.fe/AbCdEfGhIj")] []
      "AbCdEfGhIj" "n" "raw" "b").2.2.1.mpr (by decide)
  · exact (c10_value_form [("https://google.com/", "short.fe/AbCdEfGhIj")] []
      "AbCdEfGhIj" "n" "raw" "b").2.2.2 hwf

example : urlParse "" = none := by decide
example : urlParse "not a url" = none := by decide
example : urlParse "https://google.com" =
    some googleUrl := by
  decide
example : (urlParse "https://google.com").map Url.to_string = some "https://google.com/" := by
  decide

end ShortIron
